import Mathlib

/-!
Verification of the simpletory warehouse (src/inventory_heap.rs, src/main.rs).

The Rust sources are shallowly embedded below:

* `rust_decimal::Decimal` is an external collaborator of the repository; the
  specification scopes it out as "an exact fixed-point decimal arithmetic
  type".  Prices and costs are therefore modelled as `ℚ`.  The `Ord`
  instance of `Inventory` compares only `price_per_item`, so comparisons in
  the heap code below are written directly on prices.
* The backing `Vec<Inventory>` is modelled as a `List Inventory`; every array
  access performed by the Rust code is in bounds on every reachable call
  path, so `List.getD` with a default is a faithful model of indexing.
* The recursive sift routines (`heapify`, and the sift-up loop inside
  `insert`) are embedded with an explicit `gas` counter bounding the
  recursion depth; the wrappers supply gas that provably suffices, so the
  embedded functions agree with the Rust code everywhere.
* Rust panics (out-of-bounds indexing in `get_min`, `Option::unwrap` on
  `None`, and `rust_decimal` division by zero) are modelled explicitly by
  the outcome `TxOutcome.panicked` at the warehouse layer and by `Option`
  at the heap layer.  The single Rust error type `WarehouseError`, returned
  as `Result::Err` to the caller, is modelled by `TxOutcome.warehouseErr`.
* `HashMap<String, u64>` / `HashMap<u64, InventoryHeap>` are modelled as
  association lists; the code never iterates over the maps, so only
  lookup/insert behaviour matters.
-/

/-- One inventory lot: `struct Inventory { price_per_item: Decimal, quantity: u64 }`. -/
structure Inventory where
  price_per_item : ℚ
  quantity : ℕ
deriving DecidableEq

instance : Inhabited Inventory := ⟨⟨0, 0⟩⟩

namespace InventoryHeap

/-- Price stored at index `i` of the backing vector (the `Ord` instance of
`Inventory` compares only `price_per_item`). -/
def priceAt (h : List Inventory) (i : ℕ) : ℚ :=
  (h.getD i default).price_per_item

/-- The three-line swap `tmp = heap[i]; heap[i] = heap[j]; heap[j] = tmp`. -/
def swapL (h : List Inventory) (i j : ℕ) : List Inventory :=
  (h.set i (h.getD j default)).set j (h.getD i default)

/-- The `smallest` computation inside `InventoryHeap::heapify`: start from
`index`, move to the left child if it is in range and strictly smaller, then
to the right child if it is in range and strictly smaller than the current
candidate. -/
def smallest (h : List Inventory) (index : ℕ) : ℕ :=
  let left := 2 * index + 1
  let right := 2 * index + 2
  let s1 := if left < h.length ∧ priceAt h left < priceAt h index then left else index
  if right < h.length ∧ priceAt h right < priceAt h s1 then right else s1

/-- Rust `InventoryHeap::heapify`, with an explicit gas counter bounding the
recursion depth.  Each recursive call strictly increases `index` while the
length stays fixed, so `h.length` gas always suffices (see `heapify`). -/
def heapifyGas : ℕ → List Inventory → ℕ → List Inventory
  | 0, h, _ => h
  | gas + 1, h, index =>
    if h.length ≤ 1 then h
    else if smallest h index = index then h
    else heapifyGas gas (swapL h index (smallest h index)) (smallest h index)

/-- Rust `InventoryHeap::heapify`. -/
def heapify (h : List Inventory) (index : ℕ) : List Inventory :=
  heapifyGas h.length h index

/-- The sift-up loop of `InventoryHeap::insert`
(`while index != 0 { ... index = parent_index }`), with gas bounding the
number of iterations; `index` strictly decreases each iteration, so `index`
gas always suffices (see `insert`). -/
def siftUpGas : ℕ → List Inventory → ℕ → List Inventory
  | 0, h, _ => h
  | gas + 1, h, index =>
    if index = 0 then h
    else if priceAt h ((index - 1) / 2) ≤ priceAt h index then h
    else siftUpGas gas (swapL h ((index - 1) / 2) index) ((index - 1) / 2)

/-- Rust `InventoryHeap::insert`: push the lot, then sift it up. -/
def insert (h : List Inventory) (inventory : Inventory) : List Inventory :=
  siftUpGas h.length (h ++ [inventory]) h.length

/-- Rust `InventoryHeap::delete`: no-op on an empty heap; decrement the root
quantity when it exceeds 1; otherwise move the last element to the root,
pop, and sift down. -/
def delete (h : List Inventory) : List Inventory :=
  if h.length = 0 then h
  else if 1 < (h.getD 0 default).quantity then
    h.set 0 { h.getD 0 default with quantity := (h.getD 0 default).quantity - 1 }
  else
    heapify ((h.set 0 (h.getD (h.length - 1) default)).dropLast) 0

/-- Rust `InventoryHeap::get_min`: returns the root's price view; indexing
`self.heap[0]` on an empty heap panics, modelled by `none`. -/
def get_min (h : List Inventory) : Option ℚ :=
  match h with
  | [] => none
  | inventory :: _ => some inventory.price_per_item

/-- Rust `InventoryHeap::extract`: `get_min` (panics on an empty heap, before the
delete step) followed by `delete`. -/
def extract (h : List Inventory) : Option (ℚ × List Inventory) :=
  match get_min h with
  | none => none
  | some p => some (p, delete h)

end InventoryHeap

/-- Sum of `f` over a list (used for total quantities and occurrence counts). -/
def mapSum {α : Type} (f : α → ℕ) (l : List α) : ℕ :=
  (l.map f).sum

/-- Total quantity held across all lots of a heap. -/
def totalQty (h : List Inventory) : ℕ :=
  mapSum Inventory.quantity h

/-- Number of occurrences of the lot `x` (structural equality) in a heap. -/
def occ (x : Inventory) (h : List Inventory) : ℕ :=
  mapSum (fun y => if y = x then 1 else 0) h

/-- Every lot in the heap has positive quantity. -/
def AllPos (h : List Inventory) : Prop :=
  ∀ x ∈ h, 0 < x.quantity

/-- The binary min-heap property, in parent form: every non-root node is at
least its parent.  The backing sequence is a `List`, hence gapless by
construction. -/
def IsMinHeap (h : List Inventory) : Prop :=
  ∀ j < h.length, 0 < j → InventoryHeap.priceAt h ((j - 1) / 2) ≤ InventoryHeap.priceAt h j

/-- Invariant of the sift-up loop at index `i`: every parent/child pair other
than `(parent i, i)` is ordered, and the children of `i` are bounded below by
the parent of `i`. -/
def HeapExceptUp (h : List Inventory) (i : ℕ) : Prop :=
  (∀ j < h.length, 0 < j → j ≠ i →
      InventoryHeap.priceAt h ((j - 1) / 2) ≤ InventoryHeap.priceAt h j) ∧
  (∀ c < h.length, (c - 1) / 2 = i → 0 < i →
      InventoryHeap.priceAt h ((i - 1) / 2) ≤ InventoryHeap.priceAt h c)

/-- Invariant of `heapify` at index `i`: every parent/child pair whose parent
is not `i` is ordered, and the children of `i` are bounded below by the
parent of `i`. -/
def HeapExceptDown (h : List Inventory) (i : ℕ) : Prop :=
  (∀ j < h.length, 0 < j → (j - 1) / 2 ≠ i →
      InventoryHeap.priceAt h ((j - 1) / 2) ≤ InventoryHeap.priceAt h j) ∧
  (∀ c < h.length, (c - 1) / 2 = i → 0 < i →
      InventoryHeap.priceAt h ((i - 1) / 2) ≤ InventoryHeap.priceAt h c)

/-- A heap-level operation: insert a lot, or delete one unit
(the state mutation performed by `extract`). -/
inductive HeapOp where
  | ins (inv : Inventory)
  | del
deriving DecidableEq

/-- Apply one heap operation to (heap, count of successful extractions):
a `del` on a non-empty heap counts as a successful extraction. -/
def applyOp (s : List Inventory × ℕ) (op : HeapOp) : List Inventory × ℕ :=
  match op with
  | HeapOp.ins inv => (InventoryHeap.insert s.1 inv, s.2)
  | HeapOp.del => (InventoryHeap.delete s.1, if s.1 = [] then s.2 else s.2 + 1)

/-- Run a sequence of heap operations starting from the empty heap
(`InventoryHeap::new`). -/
def runOps (ops : List HeapOp) : List Inventory × ℕ :=
  ops.foldl applyOp ([], 0)

/-- The lots inserted by a sequence of heap operations. -/
def invsOf : List HeapOp → List Inventory
  | [] => []
  | HeapOp.ins inv :: rest => inv :: invsOf rest
  | HeapOp.del :: rest => invsOf rest

/-- Sum of the inserted quantities of a sequence of heap operations. -/
def insertedQty (ops : List HeapOp) : ℕ :=
  mapSum Inventory.quantity (invsOf ops)

/-- Insert a list of lots into the empty heap, in order. -/
def insertAll (lots : List Inventory) : List Inventory :=
  lots.foldl InventoryHeap.insert []

/-- Repeatedly `extract` until the heap is empty (or fuel runs out),
returning the extracted prices in order together with the final heap. -/
def extractList : ℕ → List Inventory → List ℚ × List Inventory
  | 0, h => ([], h)
  | fuel + 1, h =>
    match InventoryHeap.extract h with
    | none => ([], h)
    | some (p, h') =>
      let r := extractList fuel h'
      (p :: r.1, r.2)

/-- Rust `enum TransactionType { Produce, Consume }`. -/
inductive TransactionType where
  | Produce
  | Consume
deriving DecidableEq

/-- Rust `struct Transaction`. -/
structure Transaction where
  transaction_type : TransactionType
  inventory_id : String
  quantity : ℕ
  total_cost : Option ℚ
deriving DecidableEq

/-- Rust `struct InventoryIdMap`: product-name-to-key map plus the next fresh key. -/
structure InventoryIdMap where
  product_strings_to_ids : List (String × ℕ)
  next_id : ℕ
deriving DecidableEq

/-- Rust `HashMap::get` on the product-name map. -/
def lookupStr : List (String × ℕ) → String → Option ℕ
  | [], _ => none
  | (k, v) :: rest, s => if k = s then some v else lookupStr rest s

/-- Rust `InventoryIdMap::insert_new_key`. -/
def InventoryIdMap.insert_new_key (m : InventoryIdMap) (inventory : String) : InventoryIdMap :=
  { product_strings_to_ids := m.product_strings_to_ids ++ [(inventory, m.next_id)],
    next_id := m.next_id + 1 }

/-- Rust `InventoryIdMap::get_inventory_key`: insert a fresh key when the name is
unknown, then look it up; the `None ⇒ Err(WarehouseError)` arm of the Rust
`match` is kept as the `none` component of the result. -/
def InventoryIdMap.get_inventory_key (m : InventoryIdMap) (inventory : String) :
    Option ℕ × InventoryIdMap :=
  let m' := if (lookupStr m.product_strings_to_ids inventory).isSome then m
            else m.insert_new_key inventory
  (lookupStr m'.product_strings_to_ids inventory, m')

/-- Outcome of a warehouse call: `Ok(())`, `Err(WarehouseError)` returned to
the caller, or a Rust panic (process abort).  The warehouse value paired with
the outcome is the state at the moment of return or panic. -/
inductive TxOutcome where
  | ok
  | warehouseErr
  | panicked
deriving DecidableEq

/-- Rust `struct Warehouse` (the transaction history is its list of entries). -/
structure Warehouse where
  inventory_id_map : InventoryIdMap
  inventory_heaps : List (ℕ × List Inventory)
  transaction_history : List Transaction
deriving DecidableEq

/-- Rust `Warehouse::default()`. -/
def emptyWarehouse : Warehouse :=
  { inventory_id_map := { product_strings_to_ids := [], next_id := 0 },
    inventory_heaps := [], transaction_history := [] }

/-- Rust `HashMap::get` on the key-to-heap map. -/
def lookupHeap : List (ℕ × List Inventory) → ℕ → Option (List Inventory)
  | [], _ => none
  | (k, h) :: rest, key => if k = key then some h else lookupHeap rest key

/-- Store a heap under a key: replace the existing entry or add a new one
(the `entry(id).and_modify(..).or_insert_with(..)` / `get_mut` mutations). -/
def setHeap : List (ℕ × List Inventory) → ℕ → List Inventory → List (ℕ × List Inventory)
  | [], key, h => [(key, h)]
  | (k, h0) :: rest, key, h => if k = key then (key, h) :: rest else (k, h0) :: setHeap rest key h

/-- Rust `Warehouse::validate_transaction` (`true` = `Ok(())`): Produce requires a
present total cost, Consume an absent one.  No other field is checked. -/
def validate_transaction (t : Transaction) : Bool :=
  match t.transaction_type with
  | TransactionType.Produce => t.total_cost.isSome
  | TransactionType.Consume => t.total_cost.isNone

/-- Rust `Warehouse::produce`: resolve the key (mutating the id map), build the lot
with `price_per_item = total_cost.unwrap() / Decimal::new(quantity, 0)`
(`unwrap` of `None` and division by zero both panic), and insert it into the
product's heap, creating the heap when absent. -/
def produce (w : Warehouse) (t : Transaction) : TxOutcome × Warehouse :=
  match w.inventory_id_map.get_inventory_key t.inventory_id with
  | (none, m') => (TxOutcome.warehouseErr, { w with inventory_id_map := m' })
  | (some id, m') =>
    match t.total_cost with
    | none => (TxOutcome.panicked, { w with inventory_id_map := m' })
    | some c =>
      if t.quantity = 0 then (TxOutcome.panicked, { w with inventory_id_map := m' })
      else
        (TxOutcome.ok,
          { w with
            inventory_id_map := m',
            inventory_heaps :=
              setHeap w.inventory_heaps id
                (InventoryHeap.insert ((lookupHeap w.inventory_heaps id).getD [])
                  ⟨c / (t.quantity : ℚ), t.quantity⟩) })

/-- Rust `Warehouse::consume`: resolve the key (mutating the id map); fail with
`WarehouseError` when the product has no heap; otherwise `extract`, which
panics when the heap is empty. -/
def consume (w : Warehouse) (t : Transaction) : TxOutcome × Warehouse :=
  match w.inventory_id_map.get_inventory_key t.inventory_id with
  | (none, m') => (TxOutcome.warehouseErr, { w with inventory_id_map := m' })
  | (some id, m') =>
    match lookupHeap w.inventory_heaps id with
    | none => (TxOutcome.warehouseErr, { w with inventory_id_map := m' })
    | some h =>
      match InventoryHeap.extract h with
      | none => (TxOutcome.panicked, { w with inventory_id_map := m' })
      | some (_p, h') =>
        (TxOutcome.ok,
          { w with inventory_id_map := m', inventory_heaps := setHeap w.inventory_heaps id h' })

/-- Rust `Warehouse::transact`: validate, route to produce/consume, and append the
transaction to the history on success only. -/
def transact (w : Warehouse) (t : Transaction) : TxOutcome × Warehouse :=
  if validate_transaction t then
    match (match t.transaction_type with
           | TransactionType.Produce => produce w t
           | TransactionType.Consume => consume w t) with
    | (TxOutcome.ok, w') =>
      (TxOutcome.ok, { w' with transaction_history := w'.transaction_history ++ [t] })
    | (r, w') => (r, w')
  else (TxOutcome.warehouseErr, w)

/-- The heap currently backing product `p` (empty when the product has no
key or no heap). -/
def heapOf (w : Warehouse) (p : String) : List Inventory :=
  match lookupStr w.inventory_id_map.product_strings_to_ids p with
  | none => []
  | some k => (lookupHeap w.inventory_heaps k).getD []

/-- Whether a heap is recorded for product `p`. -/
def hasHeap (w : Warehouse) (p : String) : Bool :=
  match lookupStr w.inventory_id_map.product_strings_to_ids p with
  | none => false
  | some k => (lookupHeap w.inventory_heaps k).isSome

/-- Well-formedness of a warehouse, maintained by all operations: every
assigned key is below the fresh-key counter, and every heap key was assigned
to some product name. -/
def WF (w : Warehouse) : Prop :=
  (∀ pr ∈ w.inventory_id_map.product_strings_to_ids, pr.2 < w.inventory_id_map.next_id) ∧
  (∀ e ∈ w.inventory_heaps, ∃ pr ∈ w.inventory_id_map.product_strings_to_ids, pr.2 = e.1)

/-! ### Generic list lemmas used by the heap proofs -/

theorem setGetD_eq {α : Type} (l : List α) (i : ℕ) (v d : α) (h : i < l.length) :
    (l.set i v).getD i d = v := by
  induction l generalizing i with
  | nil => simp at h
  | cons a t ih =>
    cases i with
    | zero => rfl
    | succ n => simpa using ih n (by simpa using h)

theorem setGetD_ne {α : Type} (l : List α) (i j : ℕ) (v d : α) (h : i ≠ j) :
    (l.set i v).getD j d = l.getD j d := by
  induction l generalizing i j with
  | nil => simp
  | cons a t ih =>
    cases i with
    | zero =>
      cases j with
      | zero => exact absurd rfl h
      | succ m => rfl
    | succ n =>
      cases j with
      | zero => rfl
      | succ m => simpa using ih n m (by omega)

theorem appendGetD_lt {α : Type} (l l2 : List α) (i : ℕ) (d : α) (h : i < l.length) :
    (l ++ l2).getD i d = l.getD i d := by
  induction l generalizing i with
  | nil => simp at h
  | cons a t ih =>
    cases i with
    | zero => rfl
    | succ n => simpa using ih n (by simpa using h)

theorem appendGetD_len {α : Type} (l : List α) (a d : α) :
    (l ++ [a]).getD l.length d = a := by
  induction l with
  | nil => rfl
  | cons b t ih => simp [ih]

theorem dropLastGetD {α : Type} (l : List α) (i : ℕ) (d : α) (h : i < l.length - 1) :
    l.dropLast.getD i d = l.getD i d := by
  induction l generalizing i with
  | nil => simp at h
  | cons a t ih =>
    cases t with
    | nil => simp at h
    | cons b t2 =>
      cases i with
      | zero => rfl
      | succ n =>
        have hn : n < (b :: t2).length - 1 := by
          simp only [List.length_cons] at h ⊢
          omega
        simpa using ih n hn

theorem memOfMemSet {α : Type} (l : List α) (i : ℕ) (v x : α) (h : x ∈ l.set i v) :
    x ∈ l ∨ x = v := by
  induction l generalizing i with
  | nil => simp at h
  | cons a t ih =>
    cases i with
    | zero =>
      rcases List.mem_cons.mp h with h1 | h1
      · exact Or.inr h1
      · exact Or.inl (List.mem_cons_of_mem a h1)
    | succ n =>
      rcases List.mem_cons.mp h with h1 | h1
      · exact Or.inl (h1 ▸ List.mem_cons_self a t)
      · rcases ih n h1 with h2 | h2
        · exact Or.inl (List.mem_cons_of_mem a h2)
        · exact Or.inr h2

theorem getDMem {α : Type} (l : List α) (i : ℕ) (d : α) (h : i < l.length) :
    l.getD i d ∈ l := by
  induction l generalizing i with
  | nil => simp at h
  | cons a t ih =>
    cases i with
    | zero => exact List.mem_cons_self a t
    | succ n => exact List.mem_cons_of_mem a (ih n (by simpa using h))

theorem dropLastMem {α : Type} (l : List α) (x : α) (h : x ∈ l.dropLast) : x ∈ l := by
  induction l with
  | nil => simp at h
  | cons a t ih =>
    cases t with
    | nil => simp at h
    | cons b t2 =>
      rcases List.mem_cons.mp h with h1 | h1
      · exact h1 ▸ List.mem_cons_self a (b :: t2)
      · exact List.mem_cons_of_mem a (ih h1)

theorem existsGetDOfMem {α : Type} (l : List α) (x d : α) (h : x ∈ l) :
    ∃ i, i < l.length ∧ l.getD i d = x := by
  induction l with
  | nil => simp at h
  | cons a t ih =>
    rcases List.mem_cons.mp h with h1 | h1
    · exact ⟨0, by simp, h1.symm⟩
    · rcases ih h1 with ⟨i, hi, hx⟩
      exact ⟨i + 1, by simpa using hi, by simpa using hx⟩

theorem mapSum_cons {α : Type} (f : α → ℕ) (a : α) (l : List α) :
    mapSum f (a :: l) = f a + mapSum f l := by
  simp [mapSum]

theorem mapSum_append_single {α : Type} (f : α → ℕ) (l : List α) (a : α) :
    mapSum f (l ++ [a]) = mapSum f l + f a := by
  simp [mapSum]

theorem mapSum_set {α : Type} (f : α → ℕ) (l : List α) (i : ℕ) (v d : α) (h : i < l.length) :
    mapSum f (l.set i v) + f (l.getD i d) = mapSum f l + f v := by
  induction l generalizing i with
  | nil => simp at h
  | cons a t ih =>
    cases i with
    | zero => simp [mapSum]; omega
    | succ n =>
      have := ih n (by simpa using h)
      simp only [List.set_cons_succ, List.getD_cons_succ, mapSum_cons]
      omega

theorem mapSum_dropLast {α : Type} (f : α → ℕ) (l : List α) (d : α) (h : l ≠ []) :
    mapSum f l.dropLast + f (l.getD (l.length - 1) d) = mapSum f l := by
  induction l with
  | nil => exact absurd rfl h
  | cons a t ih =>
    cases t with
    | nil => simp [mapSum]
    | cons b t2 =>
      have := ih (by simp)
      simp only [List.length_cons, Nat.add_sub_cancel] at this ⊢
      have hdl : (a :: b :: t2).dropLast = a :: (b :: t2).dropLast := rfl
      simp only [mapSum_cons] at this
      simp only [hdl, mapSum_cons, List.getD_cons_succ]
      omega

/-! ### Swap lemmas -/

open InventoryHeap in
theorem swapL_length (h : List Inventory) (i j : ℕ) : (swapL h i j).length = h.length := by
  simp [swapL]

open InventoryHeap in
theorem priceAt_swapL_left (h : List Inventory) (i j : ℕ) (hij : i ≠ j) (hi : i < h.length) :
    priceAt (swapL h i j) i = priceAt h j := by
  unfold priceAt swapL
  rw [setGetD_ne _ j i _ _ (Ne.symm hij), setGetD_eq _ _ _ _ hi]

open InventoryHeap in
theorem priceAt_swapL_right (h : List Inventory) (i j : ℕ) (hj : j < h.length) :
    priceAt (swapL h i j) j = priceAt h i := by
  unfold priceAt swapL
  rw [setGetD_eq _ _ _ _ (by simpa using hj)]

open InventoryHeap in
theorem priceAt_swapL_other (h : List Inventory) (i j k : ℕ) (hki : k ≠ i) (hkj : k ≠ j) :
    priceAt (swapL h i j) k = priceAt h k := by
  unfold priceAt swapL
  rw [setGetD_ne _ j k _ _ (Ne.symm hkj), setGetD_ne _ i k _ _ (Ne.symm hki)]

open InventoryHeap in
theorem mem_swapL (h : List Inventory) (i j : ℕ) (x : Inventory)
    (hi : i < h.length) (hj : j < h.length) (hx : x ∈ swapL h i j) : x ∈ h := by
  rcases memOfMemSet _ _ _ _ hx with h1 | h1
  · rcases memOfMemSet _ _ _ _ h1 with h2 | h2
    · exact h2
    · exact h2 ▸ getDMem h j default hj
  · exact h1 ▸ getDMem h i default hi

open InventoryHeap in
theorem mapSum_swapL (f : Inventory → ℕ) (h : List Inventory) (i j : ℕ)
    (hij : i ≠ j) (hi : i < h.length) (hj : j < h.length) :
    mapSum f (swapL h i j) = mapSum f h := by
  have e1 := mapSum_set f h i (h.getD j default) default hi
  have e2 := mapSum_set f (h.set i (h.getD j default)) j (h.getD i default) default
    (by simpa using hj)
  rw [setGetD_ne h i j _ default hij] at e2
  unfold swapL
  omega

/-! ### The `smallest` computation -/

open InventoryHeap in
theorem smallest_spec (h : List Inventory) (i : ℕ) :
    smallest h i = i ∨
    (i < smallest h i ∧ smallest h i < h.length ∧
     (smallest h i - 1) / 2 = i ∧
     priceAt h (smallest h i) < priceAt h i ∧
     (2 * i + 1 < h.length → priceAt h (smallest h i) ≤ priceAt h (2 * i + 1)) ∧
     (2 * i + 2 < h.length → priceAt h (smallest h i) ≤ priceAt h (2 * i + 2))) := by
  simp only [smallest]
  split_ifs with h1 h2 h3
  · exact Or.inr ⟨by omega, h2.1, by omega, lt_trans h2.2 h1.2, fun _ => le_of_lt h2.2,
      fun _ => le_refl _⟩
  · exact Or.inr ⟨by omega, h1.1, by omega, h1.2, fun _ => le_refl _,
      fun hr => le_of_not_lt fun hc => h2 ⟨hr, hc⟩⟩
  · refine Or.inr ⟨by omega, h3.1, by omega, h3.2, fun hl => ?_, fun _ => le_refl _⟩
    exact le_of_lt (lt_of_lt_of_le h3.2 (le_of_not_lt fun hc => h1 ⟨hl, hc⟩))
  · exact Or.inl rfl

open InventoryHeap in
theorem smallest_eq_bounds (h : List Inventory) (i : ℕ) (he : smallest h i = i) :
    (2 * i + 1 < h.length → priceAt h i ≤ priceAt h (2 * i + 1)) ∧
    (2 * i + 2 < h.length → priceAt h i ≤ priceAt h (2 * i + 2)) := by
  simp only [smallest] at he
  split_ifs at he with h1 h2 h3
  · omega
  · omega
  · omega
  · exact ⟨fun hl => le_of_not_lt fun hc => h1 ⟨hl, hc⟩,
      fun hr => le_of_not_lt fun hc => h3 ⟨hr, hc⟩⟩

/-! ### Structural lemmas for the gas-bounded sift functions -/

open InventoryHeap in
theorem heapifyGas_length (gas : ℕ) :
    ∀ (h : List Inventory) (i : ℕ), (heapifyGas gas h i).length = h.length := by
  induction gas with
  | zero => intro h i; rfl
  | succ g ih =>
    intro h i
    simp only [heapifyGas]
    split_ifs with h1 h2
    · rfl
    · rfl
    · rw [ih, swapL_length]

open InventoryHeap in
theorem heapifyGas_mem (gas : ℕ) :
    ∀ (h : List Inventory) (i : ℕ) (x : Inventory), x ∈ heapifyGas gas h i → x ∈ h := by
  induction gas with
  | zero => intro h i x hx; exact hx
  | succ g ih =>
    intro h i x hx
    simp only [heapifyGas] at hx
    split_ifs at hx with h1 h2
    · exact hx
    · exact hx
    · rcases smallest_spec h i with hs | hs
      · exact absurd hs h2
      · exact mem_swapL h i (smallest h i) x (lt_trans hs.1 hs.2.1) hs.2.1 (ih _ _ _ hx)

open InventoryHeap in
theorem heapifyGas_mapSum (f : Inventory → ℕ) (gas : ℕ) :
    ∀ (h : List Inventory) (i : ℕ), mapSum f (heapifyGas gas h i) = mapSum f h := by
  induction gas with
  | zero => intro h i; rfl
  | succ g ih =>
    intro h i
    simp only [heapifyGas]
    split_ifs with h1 h2
    · rfl
    · rfl
    · rcases smallest_spec h i with hs | hs
      · exact absurd hs h2
      · rw [ih, mapSum_swapL f h i (smallest h i) (by omega) (lt_trans hs.1 hs.2.1) hs.2.1]

open InventoryHeap in
theorem siftUpGas_length (gas : ℕ) :
    ∀ (h : List Inventory) (i : ℕ), (siftUpGas gas h i).length = h.length := by
  induction gas with
  | zero => intro h i; rfl
  | succ g ih =>
    intro h i
    simp only [siftUpGas]
    split_ifs with h1 h2
    · rfl
    · rfl
    · rw [ih, swapL_length]

open InventoryHeap in
theorem siftUpGas_mem (gas : ℕ) :
    ∀ (h : List Inventory) (i : ℕ) (x : Inventory), i < h.length →
      x ∈ siftUpGas gas h i → x ∈ h := by
  induction gas with
  | zero => intro h i x _ hx; exact hx
  | succ g ih =>
    intro h i x hi hx
    simp only [siftUpGas] at hx
    split_ifs at hx with h1 h2
    · exact hx
    · exact hx
    · have hp : (i - 1) / 2 < i := by omega
      exact mem_swapL h ((i - 1) / 2) i x (by omega) hi
        (ih _ _ _ (by rw [swapL_length]; omega) hx)

open InventoryHeap in
theorem siftUpGas_mapSum (f : Inventory → ℕ) (gas : ℕ) :
    ∀ (h : List Inventory) (i : ℕ), i < h.length →
      mapSum f (siftUpGas gas h i) = mapSum f h := by
  induction gas with
  | zero => intro h i _; rfl
  | succ g ih =>
    intro h i hi
    simp only [siftUpGas]
    split_ifs with h1 h2
    · rfl
    · rfl
    · have hp : (i - 1) / 2 < i := by omega
      rw [ih _ _ (by rw [swapL_length]; omega),
        mapSum_swapL f h ((i - 1) / 2) i (by omega) (by omega) hi]

/-! ### Insert: length, membership, sums -/

theorem insert_length (h : List Inventory) (inv : Inventory) :
    (InventoryHeap.insert h inv).length = h.length + 1 := by
  unfold InventoryHeap.insert
  rw [siftUpGas_length]
  simp

theorem mem_insertHeap (h : List Inventory) (inv x : Inventory)
    (hx : x ∈ InventoryHeap.insert h inv) : x ∈ h ∨ x = inv := by
  unfold InventoryHeap.insert at hx
  have := siftUpGas_mem h.length (h ++ [inv]) h.length x (by simp) hx
  simpa using this

theorem insert_mapSum (f : Inventory → ℕ) (h : List Inventory) (inv : Inventory) :
    mapSum f (InventoryHeap.insert h inv) = mapSum f h + f inv := by
  unfold InventoryHeap.insert
  rw [siftUpGas_mapSum f h.length (h ++ [inv]) h.length (by simp), mapSum_append_single]

/-! ### The sift-up loop establishes the heap property -/

open InventoryHeap in
theorem siftUpGas_heap (gas : ℕ) :
    ∀ (h : List Inventory) (i : ℕ), i ≤ gas → i < h.length → HeapExceptUp h i →
      IsMinHeap (siftUpGas gas h i) := by
  induction gas with
  | zero =>
    intro h i hg _ hx
    intro j hj hj0
    exact hx.1 j hj hj0 (by omega)
  | succ g ih =>
    intro h i hg hi hx
    simp only [siftUpGas]
    split_ifs with h0 hle
    · intro j hj hj0
      exact hx.1 j hj hj0 (by omega)
    · intro j hj hj0
      by_cases hji : j = i
      · subst hji; exact hle
      · exact hx.1 j hj hj0 hji
    · have hi0 : 0 < i := by omega
      have hp : (i - 1) / 2 < i := by omega
      have hlt : priceAt h i < priceAt h ((i - 1) / 2) := lt_of_not_le hle
      have hpne : (i - 1) / 2 ≠ i := by omega
      have hplen : (i - 1) / 2 < h.length := by omega
      have eP : priceAt (swapL h ((i - 1) / 2) i) ((i - 1) / 2) = priceAt h i :=
        priceAt_swapL_left h ((i - 1) / 2) i hpne hplen
      have eI : priceAt (swapL h ((i - 1) / 2) i) i = priceAt h ((i - 1) / 2) :=
        priceAt_swapL_right h ((i - 1) / 2) i hi
      have eO : ∀ k, k ≠ (i - 1) / 2 → k ≠ i →
          priceAt (swapL h ((i - 1) / 2) i) k = priceAt h k :=
        fun k hk1 hk2 => priceAt_swapL_other h ((i - 1) / 2) i k hk1 hk2
      apply ih (swapL h ((i - 1) / 2) i) ((i - 1) / 2) (by omega)
        (by rw [swapL_length]; omega)
      constructor
      · intro j hj hj0 hjp
        rw [swapL_length] at hj
        by_cases hji : j = i
        · subst hji
          rw [eP, eI]
          exact le_of_lt hlt
        · by_cases hpar_i : (j - 1) / 2 = i
          · rw [hpar_i, eI, eO j hjp hji]
            exact hx.2 j hj hpar_i hi0
          · by_cases hpar_p : (j - 1) / 2 = (i - 1) / 2
            · rw [hpar_p, eP, eO j hjp hji]
              exact le_trans (le_of_lt hlt) (hpar_p ▸ hx.1 j hj hj0 hji)
            · rw [eO _ hpar_p hpar_i, eO j hjp hji]
              exact hx.1 j hj hj0 hji
      · intro c hc hcp hp0
        rw [swapL_length] at hc
        have hpp : ((i - 1) / 2 - 1) / 2 < (i - 1) / 2 := by omega
        have ePP : priceAt (swapL h ((i - 1) / 2) i) (((i - 1) / 2 - 1) / 2) =
            priceAt h (((i - 1) / 2 - 1) / 2) := eO _ (by omega) (by omega)
        have hbase : priceAt h (((i - 1) / 2 - 1) / 2) ≤ priceAt h ((i - 1) / 2) :=
          hx.1 ((i - 1) / 2) hplen hp0 hpne
        by_cases hci : c = i
        · subst hci
          rw [ePP, eI]
          exact hbase
        · have hcnep : c ≠ (i - 1) / 2 := by omega
          rw [ePP, eO c hcnep hci]
          exact le_trans hbase (hcp ▸ hx.1 c hc (by omega) hci)

/-- Inserting into a heap preserves the min-heap property. -/
theorem insert_isMinHeap (h : List Inventory) (inv : Inventory) (hp : IsMinHeap h) :
    IsMinHeap (InventoryHeap.insert h inv) := by
  unfold InventoryHeap.insert
  apply siftUpGas_heap h.length (h ++ [inv]) h.length (le_refl _) (by simp)
  constructor
  · intro j hj hj0 hji
    have hjlen : j < h.length := by
      simp only [List.length_append, List.length_cons, List.length_nil] at hj
      omega
    have e1 : InventoryHeap.priceAt (h ++ [inv]) j = InventoryHeap.priceAt h j := by
      unfold InventoryHeap.priceAt
      rw [appendGetD_lt _ _ _ _ hjlen]
    have e2 : InventoryHeap.priceAt (h ++ [inv]) ((j - 1) / 2) =
        InventoryHeap.priceAt h ((j - 1) / 2) := by
      unfold InventoryHeap.priceAt
      rw [appendGetD_lt _ _ _ _ (by omega)]
    rw [e1, e2]
    exact hp j hjlen hj0
  · intro c hc hcp hi0
    exfalso
    simp only [List.length_append, List.length_cons, List.length_nil] at hc
    omega

/-! ### Heapify restores the heap property -/

open InventoryHeap in
theorem heapifyGas_heap (gas : ℕ) :
    ∀ (h : List Inventory) (i : ℕ), h.length - i ≤ gas → HeapExceptDown h i →
      IsMinHeap (heapifyGas gas h i) := by
  induction gas with
  | zero =>
    intro h i hg hx
    intro j hj hj0
    have hj' : j < h.length := hj
    exact hx.1 j hj' hj0 (by omega)
  | succ g ih =>
    intro h i hg hx
    simp only [heapifyGas]
    split_ifs with hlen hsm
    · intro j hj hj0
      omega
    · intro j hj hj0
      by_cases hpar : (j - 1) / 2 = i
      · have hb := smallest_eq_bounds h i hsm
        have hj2 : j = 2 * i + 1 ∨ j = 2 * i + 2 := by omega
        rcases hj2 with hj2 | hj2
        · subst hj2; rw [hpar]; exact hb.1 hj
        · subst hj2; rw [hpar]; exact hb.2 hj
      · exact hx.1 j hj hj0 hpar
    · rcases smallest_spec h i with hs | hs
      · exact absurd hs hsm
      · obtain ⟨his, hslen, hspar, hslt, hbl, hbr⟩ := hs
        have hilen : i < h.length := lt_trans his hslen
        have hins : i ≠ smallest h i := by omega
        have eI : priceAt (swapL h i (smallest h i)) i = priceAt h (smallest h i) :=
          priceAt_swapL_left h i (smallest h i) hins hilen
        have eS : priceAt (swapL h i (smallest h i)) (smallest h i) = priceAt h i :=
          priceAt_swapL_right h i (smallest h i) hslen
        have eO : ∀ k, k ≠ i → k ≠ smallest h i →
            priceAt (swapL h i (smallest h i)) k = priceAt h k :=
          fun k hk1 hk2 => priceAt_swapL_other h i (smallest h i) k hk1 hk2
        apply ih (swapL h i (smallest h i)) (smallest h i) (by rw [swapL_length]; omega)
        constructor
        · intro j hj hj0 hjpar
          rw [swapL_length] at hj
          by_cases hjs : j = smallest h i
          · subst hjs
            rw [hspar, eI, eS]
            exact le_of_lt hslt
          · by_cases hji : j = i
            · have hi0 : 0 < i := hji ▸ hj0
              rw [hji]
              have h1 : (i - 1) / 2 ≠ i := by omega
              have h2 : (i - 1) / 2 ≠ smallest h i := by omega
              rw [eI, eO _ h1 h2]
              exact hx.2 (smallest h i) hslen hspar hi0
            · by_cases hpar_i : (j - 1) / 2 = i
              · have hj2 : j = 2 * i + 1 ∨ j = 2 * i + 2 := by omega
                rw [hpar_i, eI, eO j hji hjs]
                rcases hj2 with hj2 | hj2
                · subst hj2; exact hbl hj
                · subst hj2; exact hbr hj
              · rw [eO _ hpar_i hjpar, eO j hji hjs]
                exact hx.1 j hj hj0 hpar_i
        · intro c hc hcp hs0
          rw [swapL_length] at hc
          have hcs : c ≠ smallest h i := by omega
          have hci : c ≠ i := by omega
          rw [hspar, eI, eO c hci hcs]
          exact hcp ▸ hx.1 c hc (by omega) (by omega)

/-! ### Root minimality and delete -/

open InventoryHeap in
theorem priceAt_root_min (h : List Inventory) (hp : IsMinHeap h) :
    ∀ j, j < h.length → priceAt h 0 ≤ priceAt h j := by
  intro j
  induction j using Nat.strong_induction_on with
  | _ j ih =>
    intro hj
    rcases Nat.eq_zero_or_pos j with h0 | h0
    · subst h0; exact le_refl _
    · exact le_trans (ih ((j - 1) / 2) (by omega) (by omega)) (hp j hj h0)

open InventoryHeap in
theorem root_min_mem (h : List Inventory) (hp : IsMinHeap h) (x : Inventory) (hx : x ∈ h) :
    priceAt h 0 ≤ x.price_per_item := by
  rcases existsGetDOfMem h x default hx with ⟨i, hi, he⟩
  have e : priceAt h i = x.price_per_item := by
    unfold priceAt; rw [he]
  rw [← e]
  exact priceAt_root_min h hp i hi

open InventoryHeap in
theorem delete_isMinHeap (h : List Inventory) (hp : IsMinHeap h) :
    IsMinHeap (InventoryHeap.delete h) := by
  unfold InventoryHeap.delete
  split_ifs with h0 hq
  · exact hp
  · intro j hj hj0
    rw [List.length_set] at hj
    have e : ∀ k, priceAt (h.set 0 { h.getD 0 default with
        quantity := (h.getD 0 default).quantity - 1 }) k = priceAt h k := by
      intro k
      rcases Nat.eq_zero_or_pos k with hk | hk
      · subst hk
        unfold priceAt
        rw [setGetD_eq _ _ _ _ (by omega)]
      · unfold priceAt
        rw [setGetD_ne _ _ _ _ _ (by omega)]
    rw [e j, e ((j - 1) / 2)]
    exact hp j hj hj0
  · unfold InventoryHeap.heapify
    apply heapifyGas_heap _ _ 0 (by omega)
    constructor
    · intro j hj hj0 hpar
      have hlen : ((h.set 0 (h.getD (h.length - 1) default)).dropLast).length =
          h.length - 1 := by
        simp
      rw [hlen] at hj
      have e : ∀ k, k < h.length - 1 → 0 < k →
          priceAt ((h.set 0 (h.getD (h.length - 1) default)).dropLast) k = priceAt h k := by
        intro k hk hk0
        unfold priceAt
        rw [dropLastGetD _ _ _ (by simp; omega), setGetD_ne _ _ _ _ _ (by omega)]
      rw [e j hj hj0, e ((j - 1) / 2) (by omega) (by omega)]
      exact hp j (by omega) hj0
    · intro c hc hcp hi0
      omega

open InventoryHeap in
theorem delete_ge_min (h : List Inventory) (hp : IsMinHeap h) (x : Inventory)
    (hx : x ∈ InventoryHeap.delete h) :
    priceAt h 0 ≤ x.price_per_item := by
  unfold InventoryHeap.delete at hx
  split_ifs at hx with h0 hq
  · exact root_min_mem h hp x hx
  · rcases memOfMemSet _ _ _ _ hx with h1 | h1
    · exact root_min_mem h hp x h1
    · subst h1
      exact le_of_eq rfl
  · unfold InventoryHeap.heapify at hx
    have hxg := heapifyGas_mem _ _ _ _ hx
    have hxs := dropLastMem _ _ hxg
    rcases memOfMemSet _ _ _ _ hxs with h1 | h1
    · exact root_min_mem h hp x h1
    · subst h1
      exact root_min_mem h hp _ (getDMem h _ default (by omega))

theorem delete_allPos (h : List Inventory) (ha : AllPos h) :
    AllPos (InventoryHeap.delete h) := by
  intro x hx
  unfold InventoryHeap.delete at hx
  split_ifs at hx with h0 hq
  · exact ha x hx
  · rcases memOfMemSet _ _ _ _ hx with h1 | h1
    · exact ha x h1
    · subst h1
      simp only []
      omega
  · unfold InventoryHeap.heapify at hx
    have hxg := heapifyGas_mem _ _ _ _ hx
    have hxs := dropLastMem _ _ hxg
    rcases memOfMemSet _ _ _ _ hxs with h1 | h1
    · exact ha x h1
    · subst h1
      exact ha _ (getDMem h _ default (by omega))

/-- Deleting from a non-empty heap whose root has positive quantity removes
exactly one unit of total quantity. -/
theorem delete_totalQty (h : List Inventory) (h0 : h ≠ [])
    (hq1 : 0 < (h.getD 0 default).quantity) :
    totalQty (InventoryHeap.delete h) + 1 = totalQty h := by
  have hlen0 : 0 < h.length := List.length_pos.mpr h0
  unfold InventoryHeap.delete
  split_ifs with hlen hq
  · omega
  · have e := mapSum_set Inventory.quantity h 0
      { h.getD 0 default with quantity := (h.getD 0 default).quantity - 1 } default (by omega)
    have ev : Inventory.quantity { h.getD 0 default with
        quantity := (h.getD 0 default).quantity - 1 } = (h.getD 0 default).quantity - 1 := rfl
    rw [ev] at e
    unfold totalQty
    omega
  · have hq2 : (h.getD 0 default).quantity = 1 := by omega
    unfold totalQty InventoryHeap.heapify
    rw [heapifyGas_mapSum]
    have hsetne : h.set 0 (h.getD (h.length - 1) default) ≠ [] := by
      intro hcon
      have := congrArg List.length hcon
      simp only [List.length_set, List.length_nil] at this
      omega
    have e1 := mapSum_dropLast Inventory.quantity
      (h.set 0 (h.getD (h.length - 1) default)) default hsetne
    have e2 := mapSum_set Inventory.quantity h 0 (h.getD (h.length - 1) default)
      default (by omega)
    have e3 : (h.set 0 (h.getD (h.length - 1) default)).getD
        ((h.set 0 (h.getD (h.length - 1) default)).length - 1) default =
        h.getD (h.length - 1) default := by
      rw [List.length_set]
      rcases Nat.eq_zero_or_pos (h.length - 1) with hl1 | hl1
      · rw [hl1]
        exact setGetD_eq _ _ _ _ (by omega)
      · exact setGetD_ne _ _ _ _ _ (by omega)
    rw [e3] at e1
    omega

/-- Deleting from a non-empty heap strictly decreases `length + totalQty`. -/
theorem delete_measure (h : List Inventory) (h0 : h ≠ []) :
    (InventoryHeap.delete h).length + totalQty (InventoryHeap.delete h) <
      h.length + totalQty h := by
  have hlen0 : 0 < h.length := List.length_pos.mpr h0
  unfold InventoryHeap.delete
  split_ifs with hlen hq
  · omega
  · have e := mapSum_set Inventory.quantity h 0
      { h.getD 0 default with quantity := (h.getD 0 default).quantity - 1 } default (by omega)
    have ev : Inventory.quantity { h.getD 0 default with
        quantity := (h.getD 0 default).quantity - 1 } = (h.getD 0 default).quantity - 1 := rfl
    rw [ev] at e
    unfold totalQty
    rw [List.length_set]
    omega
  · unfold totalQty InventoryHeap.heapify
    rw [heapifyGas_mapSum, heapifyGas_length]
    have hsetne : h.set 0 (h.getD (h.length - 1) default) ≠ [] := by
      intro hcon
      have := congrArg List.length hcon
      simp only [List.length_set, List.length_nil] at this
      omega
    have e1 := mapSum_dropLast Inventory.quantity
      (h.set 0 (h.getD (h.length - 1) default)) default hsetne
    have e2 := mapSum_set Inventory.quantity h 0 (h.getD (h.length - 1) default)
      default (by omega)
    have e3 : (h.set 0 (h.getD (h.length - 1) default)).getD
        ((h.set 0 (h.getD (h.length - 1) default)).length - 1) default =
        h.getD (h.length - 1) default := by
      rw [List.length_set]
      rcases Nat.eq_zero_or_pos (h.length - 1) with hl1 | hl1
      · rw [hl1]
        exact setGetD_eq _ _ _ _ (by omega)
      · exact setGetD_ne _ _ _ _ _ (by omega)
    rw [e3] at e1
    have hql : (h.getD 0 default).quantity ≤ 1 := by omega
    have hlendl : ((h.set 0 (h.getD (h.length - 1) default)).dropLast).length =
        h.length - 1 := by simp
    rw [hlendl]
    omega

/-! ### Insert corollaries and operation-sequence invariants -/

theorem insert_allPos (h : List Inventory) (inv : Inventory) (ha : AllPos h)
    (hq : 0 < inv.quantity) : AllPos (InventoryHeap.insert h inv) := by
  intro x hx
  rcases mem_insertHeap h inv x hx with h1 | h1
  · exact ha x h1
  · rw [h1]; exact hq

theorem insert_totalQty (h : List Inventory) (inv : Inventory) :
    totalQty (InventoryHeap.insert h inv) = totalQty h + inv.quantity :=
  insert_mapSum Inventory.quantity h inv

theorem insert_occ (h : List Inventory) (inv x : Inventory) :
    occ x (InventoryHeap.insert h inv) = occ x h + (if inv = x then 1 else 0) :=
  insert_mapSum (fun y => if y = x then 1 else 0) h inv

@[simp] theorem applyOp_ins (s : List Inventory × ℕ) (inv : Inventory) :
    applyOp s (HeapOp.ins inv) = (InventoryHeap.insert s.1 inv, s.2) := rfl

@[simp] theorem applyOp_del (s : List Inventory × ℕ) :
    applyOp s HeapOp.del =
      (InventoryHeap.delete s.1, if s.1 = [] then s.2 else s.2 + 1) := rfl

theorem foldl_isMinHeap (ops : List HeapOp) :
    ∀ s : List Inventory × ℕ, IsMinHeap s.1 → IsMinHeap (ops.foldl applyOp s).1 := by
  induction ops with
  | nil => intro s hs; exact hs
  | cons op rest ih =>
    intro s hs
    rw [List.foldl_cons]
    apply ih
    cases op with
    | ins inv => exact insert_isMinHeap s.1 inv hs
    | del => exact delete_isMinHeap s.1 hs

theorem foldl_qty (ops : List HeapOp) :
    ∀ s : List Inventory × ℕ, AllPos s.1 → (∀ inv ∈ invsOf ops, 0 < inv.quantity) →
      totalQty (ops.foldl applyOp s).1 + (ops.foldl applyOp s).2 =
        totalQty s.1 + s.2 + insertedQty ops ∧ AllPos (ops.foldl applyOp s).1 := by
  induction ops with
  | nil =>
    intro s hs _
    exact ⟨by simp [insertedQty, invsOf, mapSum], hs⟩
  | cons op rest ih =>
    intro s hs hins
    rw [List.foldl_cons]
    cases op with
    | ins inv =>
      have hinv : 0 < inv.quantity := hins inv (by rw [invsOf]; exact List.mem_cons_self _ _)
      have hrest : ∀ x ∈ invsOf rest, 0 < x.quantity := fun x hx =>
        hins x (by rw [invsOf]; exact List.mem_cons_of_mem _ hx)
      have H := ih (applyOp s (HeapOp.ins inv))
        (by rw [applyOp_ins]; exact insert_allPos s.1 inv hs hinv) hrest
      refine ⟨?_, H.2⟩
      rw [H.1, applyOp_ins]
      have e := insert_totalQty s.1 inv
      have e2 : insertedQty (HeapOp.ins inv :: rest) = inv.quantity + insertedQty rest := by
        simp [insertedQty, invsOf, mapSum_cons]
      rw [e2]
      simp only []
      omega
    | del =>
      have hrest : ∀ x ∈ invsOf rest, 0 < x.quantity := fun x hx => hins x (by rw [invsOf]; exact hx)
      have H := ih (applyOp s HeapOp.del)
        (by rw [applyOp_del]; exact delete_allPos s.1 hs) hrest
      refine ⟨?_, H.2⟩
      rw [H.1, applyOp_del]
      have e2 : insertedQty (HeapOp.del :: rest) = insertedQty rest := rfl
      rw [e2]
      by_cases hemp : s.1 = []
      · rw [if_pos hemp, hemp]
        have hd : InventoryHeap.delete [] = [] := rfl
        rw [hd]
      · rw [if_neg hemp]
        have hroot : 0 < ((s.1).getD 0 default).quantity :=
          hs _ (getDMem s.1 0 default (List.length_pos.mpr hemp))
        have := delete_totalQty s.1 hemp hroot
        simp only []
        omega

/-! ### Repeated extraction -/

theorem extract_eq (h : List Inventory) (hne : h ≠ []) :
    InventoryHeap.extract h =
      some ((h.getD 0 default).price_per_item, InventoryHeap.delete h) := by
  cases h with
  | nil => exact absurd rfl hne
  | cons a t => rfl

theorem extractList_nil (fuel : ℕ) : extractList fuel [] = ([], []) := by
  cases fuel with
  | zero => rfl
  | succ f => rfl

theorem extractList_cons (fuel : ℕ) (h : List Inventory) (hne : h ≠ []) :
    extractList (fuel + 1) h =
      ((h.getD 0 default).price_per_item :: (extractList fuel (InventoryHeap.delete h)).1,
        (extractList fuel (InventoryHeap.delete h)).2) := by
  simp only [extractList]
  rw [extract_eq h hne]

theorem extractList_empty_end (fuel : ℕ) :
    ∀ h : List Inventory, h.length + totalQty h ≤ fuel → (extractList fuel h).2 = [] := by
  induction fuel with
  | zero =>
    intro h hf
    have h1 : h.length = 0 := by omega
    have h2 : h = [] := List.length_eq_zero.mp h1
    rw [h2]
    rfl
  | succ f ih =>
    intro h hf
    by_cases hne : h = []
    · rw [hne, extractList_nil]
    · rw [extractList_cons f h hne]
      apply ih
      have := delete_measure h hne
      omega

open InventoryHeap in
theorem extractList_lb (fuel : ℕ) :
    ∀ (h : List Inventory) (c : ℚ), IsMinHeap h → (∀ x ∈ h, c ≤ x.price_per_item) →
      ∀ q ∈ (extractList fuel h).1, c ≤ q := by
  induction fuel with
  | zero =>
    intro h c _ _ q hq
    simp [extractList] at hq
  | succ f ih =>
    intro h c hp hc q hq
    by_cases hne : h = []
    · rw [hne, extractList_nil] at hq
      simp at hq
    · rw [extractList_cons f h hne] at hq
      rcases List.mem_cons.mp hq with h1 | h1
      · rw [h1]
        exact hc _ (getDMem h 0 default (List.length_pos.mpr hne))
      · refine ih (delete h) c (delete_isMinHeap h hp) ?_ q h1
        intro x hx
        have h2 : c ≤ priceAt h 0 :=
          hc _ (getDMem h 0 default (List.length_pos.mpr hne))
        exact le_trans h2 (delete_ge_min h hp x hx)

open InventoryHeap in
theorem extractList_sorted (fuel : ℕ) :
    ∀ h : List Inventory, IsMinHeap h → ((extractList fuel h).1).Sorted (· ≤ ·) := by
  induction fuel with
  | zero =>
    intro h _
    simp [extractList]
  | succ f ih =>
    intro h hp
    by_cases hne : h = []
    · rw [hne, extractList_nil]
      simp
    · rw [extractList_cons f h hne, List.sorted_cons]
      constructor
      · intro b hb
        refine extractList_lb f (delete h) (priceAt h 0) (delete_isMinHeap h hp) ?_ b hb
        intro x hx
        exact delete_ge_min h hp x hx
      · exact ih (delete h) (delete_isMinHeap h hp)

theorem insertAll_isMinHeap (lots : List Inventory) : IsMinHeap (insertAll lots) := by
  have : ∀ (l : List Inventory) (s : List Inventory), IsMinHeap s →
      IsMinHeap (l.foldl InventoryHeap.insert s) := by
    intro l
    induction l with
    | nil => intro s hs; exact hs
    | cons a t ih =>
      intro s hs
      rw [List.foldl_cons]
      exact ih _ (insert_isMinHeap s a hs)
  exact this lots [] (by intro j hj hj0; simp at hj)

/-! ### Warehouse-layer lemmas -/

theorem lookupStr_append_absent (m : List (String × ℕ)) (p : String) (k : ℕ)
    (h : lookupStr m p = none) : lookupStr (m ++ [(p, k)]) p = some k := by
  induction m with
  | nil => simp [lookupStr]
  | cons a t ih =>
    obtain ⟨k2, v⟩ := a
    simp only [lookupStr, List.cons_append] at h ⊢
    by_cases hk : k2 = p
    · rw [if_pos hk] at h
      cases h
    · rw [if_neg hk] at h ⊢
      exact ih h

theorem lookupHeap_mem (hs : List (ℕ × List Inventory)) (k : ℕ) (h : List Inventory)
    (he : lookupHeap hs k = some h) : (k, h) ∈ hs := by
  induction hs with
  | nil => cases he
  | cons a t ih =>
    obtain ⟨k2, h2⟩ := a
    simp only [lookupHeap] at he
    by_cases hk : k2 = k
    · rw [if_pos hk] at he
      injection he with he2
      subst he2
      subst hk
      exact List.mem_cons_self _ _
    · rw [if_neg hk] at he
      exact List.mem_cons_of_mem _ (ih he)

theorem lookupHeap_setHeap_eq (hs : List (ℕ × List Inventory)) (k : ℕ) (h : List Inventory) :
    lookupHeap (setHeap hs k h) k = some h := by
  induction hs with
  | nil => simp [setHeap, lookupHeap]
  | cons a t ih =>
    obtain ⟨k2, h2⟩ := a
    simp only [setHeap]
    by_cases hk : k2 = k
    · rw [if_pos hk]
      simp [lookupHeap]
    · rw [if_neg hk]
      simp only [lookupHeap]
      rw [if_neg hk]
      exact ih

/-- In a well-formed warehouse the fresh key has no heap. -/
theorem WF_fresh (w : Warehouse) (hw : WF w) :
    lookupHeap w.inventory_heaps w.inventory_id_map.next_id = none := by
  cases he : lookupHeap w.inventory_heaps w.inventory_id_map.next_id with
  | none => rfl
  | some h =>
    exfalso
    have hmem := lookupHeap_mem _ _ _ he
    rcases hw.2 _ hmem with ⟨pr, hpr, hpr2⟩
    have := hw.1 pr hpr
    simp only [] at hpr2
    omega

theorem get_inventory_key_known (m : InventoryIdMap) (p : String) (k : ℕ)
    (h : lookupStr m.product_strings_to_ids p = some k) :
    m.get_inventory_key p = (some k, m) := by
  unfold InventoryIdMap.get_inventory_key
  rw [h]
  simp [h]

theorem get_inventory_key_fresh (m : InventoryIdMap) (p : String)
    (h : lookupStr m.product_strings_to_ids p = none) :
    m.get_inventory_key p = (some m.next_id, m.insert_new_key p) := by
  unfold InventoryIdMap.get_inventory_key
  rw [h]
  simp only [Option.isSome_none, Bool.false_eq_true, if_false]
  unfold InventoryIdMap.insert_new_key
  simp only []
  rw [lookupStr_append_absent _ _ _ h]

theorem transact_produce_eq (w : Warehouse) (p : String) (q : ℕ) (c : ℚ) (hq : q ≠ 0)
    (k : ℕ) (m' : InventoryIdMap)
    (hk : w.inventory_id_map.get_inventory_key p = (some k, m')) :
    transact w ⟨TransactionType.Produce, p, q, some c⟩ =
      (TxOutcome.ok,
        { inventory_id_map := m',
          inventory_heaps := setHeap w.inventory_heaps k
            (InventoryHeap.insert ((lookupHeap w.inventory_heaps k).getD [])
              ⟨c / (q : ℚ), q⟩),
          transaction_history :=
            w.transaction_history ++ [⟨TransactionType.Produce, p, q, some c⟩] }) := by
  unfold transact validate_transaction produce
  simp only [hk, Option.isSome_some, if_true, if_neg hq]

theorem transact_consume_ok (w : Warehouse) (p : String) (q k : ℕ) (m' : InventoryIdMap)
    (h : List Inventory) (hk : w.inventory_id_map.get_inventory_key p = (some k, m'))
    (hh : lookupHeap w.inventory_heaps k = some h) (hne : h ≠ []) :
    transact w ⟨TransactionType.Consume, p, q, none⟩ =
      (TxOutcome.ok,
        { inventory_id_map := m',
          inventory_heaps := setHeap w.inventory_heaps k (InventoryHeap.delete h),
          transaction_history :=
            w.transaction_history ++ [⟨TransactionType.Consume, p, q, none⟩] }) := by
  unfold transact validate_transaction consume
  simp only [hk, hh, extract_eq h hne, Option.isNone_none, if_true]

theorem transact_consume_empty (w : Warehouse) (p : String) (q k : ℕ) (m' : InventoryIdMap)
    (hk : w.inventory_id_map.get_inventory_key p = (some k, m'))
    (hh : lookupHeap w.inventory_heaps k = some []) :
    transact w ⟨TransactionType.Consume, p, q, none⟩ =
      (TxOutcome.panicked, { w with inventory_id_map := m' }) := by
  unfold transact validate_transaction consume
  have he : InventoryHeap.extract ([] : List Inventory) = none := rfl
  simp only [hk, hh, he, Option.isNone_none, if_true]

theorem transact_consume_noheap (w : Warehouse) (p : String) (q k : ℕ) (m' : InventoryIdMap)
    (hk : w.inventory_id_map.get_inventory_key p = (some k, m'))
    (hh : lookupHeap w.inventory_heaps k = none) :
    transact w ⟨TransactionType.Consume, p, q, none⟩ =
      (TxOutcome.warehouseErr, { w with inventory_id_map := m' }) := by
  unfold transact validate_transaction consume
  simp only [hk, hh, Option.isNone_none, if_true]

/-! ### The claims -/

/-- C1: for every sequence of lots inserted into a single product's heap
followed by repeated `extract` calls, the sequence of extracted prices is
non-decreasing, and the extraction loop runs until the heap is empty (the
supplied fuel provably exhausts the heap, as the second conjunct shows). -/
theorem C1_monotonic_extraction (lots : List Inventory) :
    ((extractList ((insertAll lots).length + totalQty (insertAll lots))
        (insertAll lots)).1).Sorted (· ≤ ·) ∧
    (extractList ((insertAll lots).length + totalQty (insertAll lots))
        (insertAll lots)).2 = [] :=
  ⟨extractList_sorted _ _ (insertAll_isMinHeap lots),
    extractList_empty_end _ _ (le_refl _)⟩

/-- C2: after any sequence of insert and extract/delete operations starting
from the empty heap, the binary min-heap property holds: every node's price
is at most the price of each of its children.  The backing sequence is a
Lean list, hence gapless by construction. -/
theorem C2_heap_invariant (ops : List HeapOp) :
    ∀ i : ℕ,
      (2 * i + 1 < (runOps ops).1.length →
        InventoryHeap.priceAt (runOps ops).1 i ≤
          InventoryHeap.priceAt (runOps ops).1 (2 * i + 1)) ∧
      (2 * i + 2 < (runOps ops).1.length →
        InventoryHeap.priceAt (runOps ops).1 i ≤
          InventoryHeap.priceAt (runOps ops).1 (2 * i + 2)) := by
  have hp : IsMinHeap (runOps ops).1 := by
    unfold runOps
    apply foldl_isMinHeap
    intro j hj hj0
    simp at hj
  intro i
  constructor
  · intro hl
    have h1 := hp (2 * i + 1) hl (by omega)
    have e : (2 * i + 1 - 1) / 2 = i := by omega
    rwa [e] at h1
  · intro hr
    have h1 := hp (2 * i + 2) hr (by omega)
    have e : (2 * i + 2 - 1) / 2 = i := by omega
    rwa [e] at h1

/-- C9: for every sequence of heap operations whose inserted lots all have
positive quantity, the total quantity in the heap plus the number of
successful extractions equals the sum of inserted quantities (the claim's
"total equals inserted minus extracted" in subtraction-free form), and no lot
in the heap has quantity 0.  The statement quantifies over all operation
sequences, hence holds at every intermediate point of a longer run. -/
theorem C9_quantity_conservation (ops : List HeapOp)
    (hpos : ∀ inv ∈ invsOf ops, 0 < inv.quantity) :
    totalQty (runOps ops).1 + (runOps ops).2 = insertedQty ops ∧
    ∀ x ∈ (runOps ops).1, 0 < x.quantity := by
  have H := foldl_qty ops ([], 0) (by intro x hx; simp at hx) hpos
  unfold runOps
  constructor
  · have h1 := H.1
    simpa [totalQty, mapSum] using h1
  · exact H.2

/-- Witness for C9 at a concrete operation sequence: insert one lot of
quantity 2 at price 1, then delete three times (the third delete is an
unsuccessful extraction on the empty heap). -/
theorem C9_witness :
    (∀ inv ∈ invsOf [HeapOp.ins ⟨1, 2⟩, HeapOp.del, HeapOp.del, HeapOp.del],
        0 < inv.quantity) ∧
    (totalQty (runOps [HeapOp.ins ⟨1, 2⟩, HeapOp.del, HeapOp.del, HeapOp.del]).1 +
        (runOps [HeapOp.ins ⟨1, 2⟩, HeapOp.del, HeapOp.del, HeapOp.del]).2 =
        insertedQty [HeapOp.ins ⟨1, 2⟩, HeapOp.del, HeapOp.del, HeapOp.del] ∧
      ∀ x ∈ (runOps [HeapOp.ins ⟨1, 2⟩, HeapOp.del, HeapOp.del, HeapOp.del]).1,
        0 < x.quantity) :=
  ⟨by decide, C9_quantity_conservation _ (by decide)⟩

/-- C3: an accepted Produce transaction with product `p`, quantity `q > 0` and
total cost `c` succeeds and inserts exactly one new lot with
`price_per_unit = c / q` (exact division in the ℚ model of the decimal type)
and quantity `q` into `p`'s heap, creating the heap when absent; lots are
never merged: the lot count grows by exactly one and only the new lot's
multiplicity changes, even when an existing lot has the same price. -/
theorem C3_produce_one_lot (w : Warehouse) (p : String) (q : ℕ) (c : ℚ)
    (hw : WF w) (hq : 0 < q) :
    (transact w ⟨TransactionType.Produce, p, q, some c⟩).1 = TxOutcome.ok ∧
    heapOf (transact w ⟨TransactionType.Produce, p, q, some c⟩).2 p =
      InventoryHeap.insert (heapOf w p) ⟨c / (q : ℚ), q⟩ ∧
    (heapOf (transact w ⟨TransactionType.Produce, p, q, some c⟩).2 p).length =
      (heapOf w p).length + 1 ∧
    ∀ x : Inventory,
      occ x (heapOf (transact w ⟨TransactionType.Produce, p, q, some c⟩).2 p) =
        occ x (heapOf w p) + (if x = ⟨c / (q : ℚ), q⟩ then 1 else 0) := by
  have hhp : heapOf (transact w ⟨TransactionType.Produce, p, q, some c⟩).2 p =
      InventoryHeap.insert (heapOf w p) ⟨c / (q : ℚ), q⟩ ∧
      (transact w ⟨TransactionType.Produce, p, q, some c⟩).1 = TxOutcome.ok := by
    rcases hcase : lookupStr w.inventory_id_map.product_strings_to_ids p with _ | k
    · have hkey := get_inventory_key_fresh w.inventory_id_map p hcase
      have htr := transact_produce_eq w p q c (by omega) w.inventory_id_map.next_id _ hkey
      rw [WF_fresh w hw] at htr
      constructor
      · rw [htr]
        unfold heapOf
        simp only [InventoryIdMap.insert_new_key]
        rw [hcase, lookupStr_append_absent _ _ _ hcase]
        simp only [lookupHeap_setHeap_eq, Option.getD_some, Option.getD_none]
      · rw [htr]
    · have hkey := get_inventory_key_known w.inventory_id_map p k hcase
      have htr := transact_produce_eq w p q c (by omega) k _ hkey
      constructor
      · rw [htr]
        unfold heapOf
        simp only []
        rw [hcase]
        simp only [lookupHeap_setHeap_eq, Option.getD_some]
      · rw [htr]
  refine ⟨hhp.2, hhp.1, ?_, ?_⟩
  · rw [hhp.1, insert_length]
  · intro x
    rw [hhp.1, insert_occ]
    by_cases hx : x = ⟨c / (q : ℚ), q⟩
    · rw [if_pos hx, if_pos hx.symm]
    · rw [if_neg hx, if_neg fun hc => hx hc.symm]

/-- Witness for C3: producing 9 units of a product at total cost 10 in the
empty warehouse succeeds and creates a single-lot heap at price 10/9. -/
theorem C3_witness :
    WF emptyWarehouse ∧ 0 < 9 ∧
    ((transact emptyWarehouse ⟨TransactionType.Produce, "Box", 9, some 10⟩).1 =
        TxOutcome.ok ∧
      heapOf (transact emptyWarehouse ⟨TransactionType.Produce, "Box", 9, some 10⟩).2
          ("Box") =
        InventoryHeap.insert (heapOf emptyWarehouse ("Box")) ⟨10 / (9 : ℚ), 9⟩ ∧
      (heapOf (transact emptyWarehouse ⟨TransactionType.Produce, "Box", 9, some 10⟩).2
          ("Box")).length = (heapOf emptyWarehouse ("Box")).length + 1 ∧
      ∀ x : Inventory,
        occ x (heapOf (transact emptyWarehouse
            ⟨TransactionType.Produce, "Box", 9, some 10⟩).2 ("Box")) =
          occ x (heapOf emptyWarehouse ("Box")) +
            (if x = ⟨10 / (9 : ℚ), 9⟩ then 1 else 0)) :=
  have hwf : WF emptyWarehouse := by
    constructor
    · intro a ha
      simp [emptyWarehouse] at ha
    · intro a ha
      simp [emptyWarehouse] at ha
  ⟨hwf, by decide, C3_produce_one_lot emptyWarehouse ("Box") 9 10 hwf (by decide)⟩

/-- Reading the heap of a product whose name is mapped to key `k`. -/
theorem heapOf_some (w : Warehouse) (p : String) (k : ℕ)
    (hk : lookupStr w.inventory_id_map.product_strings_to_ids p = some k) :
    heapOf w p = (lookupHeap w.inventory_heaps k).getD [] := by
  unfold heapOf
  rw [hk]

theorem heapOf_none (w : Warehouse) (p : String)
    (hk : lookupStr w.inventory_id_map.product_strings_to_ids p = none) :
    heapOf w p = [] := by
  unfold heapOf
  rw [hk]

theorem hasHeap_some (w : Warehouse) (p : String) (k : ℕ)
    (hk : lookupStr w.inventory_id_map.product_strings_to_ids p = some k) :
    hasHeap w p = (lookupHeap w.inventory_heaps k).isSome := by
  unfold hasHeap
  rw [hk]

/-- Rust `produce` never touches the transaction history. -/
theorem produce_history (w : Warehouse) (t : Transaction) :
    (produce w t).2.transaction_history = w.transaction_history := by
  unfold produce
  rcases hk : w.inventory_id_map.get_inventory_key t.inventory_id with ⟨ko, m2⟩
  cases ko with
  | none => simp only [hk]
  | some k =>
    cases hc : t.total_cost with
    | none => simp only [hk, hc]
    | some c =>
      by_cases hq : t.quantity = 0
      · simp only [hk, hc, if_pos hq]
      · simp only [hk, hc, if_neg hq]

/-- Rust `consume` never touches the transaction history. -/
theorem consume_history (w : Warehouse) (t : Transaction) :
    (consume w t).2.transaction_history = w.transaction_history := by
  unfold consume
  rcases hk : w.inventory_id_map.get_inventory_key t.inventory_id with ⟨ko, m2⟩
  cases ko with
  | none => simp only [hk]
  | some k =>
    cases hh : lookupHeap w.inventory_heaps k with
    | none => simp only [hk, hh]
    | some h =>
      cases he : InventoryHeap.extract h with
      | none => simp only [hk, hh, he]
      | some pr => simp only [hk, hh, he]

/-- A failing `produce` leaves the heaps untouched. -/
theorem produce_fail_heaps (w : Warehouse) (t : Transaction)
    (hf : (produce w t).1 ≠ TxOutcome.ok) :
    (produce w t).2.inventory_heaps = w.inventory_heaps := by
  unfold produce at hf ⊢
  rcases hk : w.inventory_id_map.get_inventory_key t.inventory_id with ⟨ko, m2⟩
  cases ko with
  | none => simp only [hk]
  | some k =>
    cases hc : t.total_cost with
    | none => simp only [hk, hc]
    | some c =>
      by_cases hq : t.quantity = 0
      · simp only [hk, hc, if_pos hq]
      · simp only [hk, hc, if_neg hq] at hf
        exact absurd rfl hf

/-- A failing `consume` leaves the heaps untouched. -/
theorem consume_fail_heaps (w : Warehouse) (t : Transaction)
    (hf : (consume w t).1 ≠ TxOutcome.ok) :
    (consume w t).2.inventory_heaps = w.inventory_heaps := by
  unfold consume at hf ⊢
  rcases hk : w.inventory_id_map.get_inventory_key t.inventory_id with ⟨ko, m2⟩
  cases ko with
  | none => simp only [hk]
  | some k =>
    cases hh : lookupHeap w.inventory_heaps k with
    | none => simp only [hk, hh]
    | some h =>
      cases he : InventoryHeap.extract h with
      | none => simp only [hk, hh, he]
      | some pr =>
        simp only [hk, hh, he] at hf
        exact absurd rfl hf

/-- C10: every Consume accepted by transact removes exactly one unit from the
product's heap regardless of the transaction's quantity field: a Consume with
any quantity `q` (cost absent) against a non-empty heap is not rejected,
decreases the total quantity by exactly one, and is appended to the history
carrying its stated quantity. -/
theorem C10_consume_one_unit (w : Warehouse) (p : String) (q k : ℕ) (h : List Inventory)
    (hk : lookupStr w.inventory_id_map.product_strings_to_ids p = some k)
    (hh : lookupHeap w.inventory_heaps k = some h)
    (hne : h ≠ []) (hpos : ∀ x ∈ h, 0 < x.quantity) :
    (transact w ⟨TransactionType.Consume, p, q, none⟩).1 = TxOutcome.ok ∧
    totalQty (heapOf (transact w ⟨TransactionType.Consume, p, q, none⟩).2 p) + 1 =
      totalQty (heapOf w p) ∧
    (transact w ⟨TransactionType.Consume, p, q, none⟩).2.transaction_history =
      w.transaction_history ++ [⟨TransactionType.Consume, p, q, none⟩] := by
  have hkey := get_inventory_key_known w.inventory_id_map p k hk
  have htr := transact_consume_ok w p q k _ h hkey hh hne
  refine ⟨by rw [htr], ?_, by rw [htr]⟩
  rw [htr, heapOf_some w p k hk, hh, Option.getD_some,
    heapOf_some _ p k (by exact hk), lookupHeap_setHeap_eq, Option.getD_some]
  exact delete_totalQty h hne (hpos _ (getDMem h 0 default (List.length_pos.mpr hne)))

/-- Witness for C10: a Consume with the over-large quantity 5 against a
single-lot heap of quantity 3 succeeds, removes exactly one unit, and is
recorded with quantity 5. -/
theorem C10_witness :
    (lookupStr (⟨⟨[("Box", 0)], 1⟩, [(0, [⟨1, 3⟩])], []⟩ :
        Warehouse).inventory_id_map.product_strings_to_ids ("Box") = some 0 ∧
      lookupHeap (⟨⟨[("Box", 0)], 1⟩, [(0, [⟨1, 3⟩])], []⟩ :
        Warehouse).inventory_heaps 0 = some [⟨1, 3⟩] ∧
      ([⟨1, 3⟩] : List Inventory) ≠ [] ∧
      (∀ x ∈ ([⟨1, 3⟩] : List Inventory), 0 < x.quantity)) ∧
    ((transact (⟨⟨[("Box", 0)], 1⟩, [(0, [⟨1, 3⟩])], []⟩ : Warehouse)
        ⟨TransactionType.Consume, "Box", 5, none⟩).1 = TxOutcome.ok ∧
      totalQty (heapOf (transact (⟨⟨[("Box", 0)], 1⟩, [(0, [⟨1, 3⟩])], []⟩ : Warehouse)
          ⟨TransactionType.Consume, "Box", 5, none⟩).2 ("Box")) + 1 =
        totalQty (heapOf (⟨⟨[("Box", 0)], 1⟩, [(0, [⟨1, 3⟩])], []⟩ : Warehouse) ("Box")) ∧
      (transact (⟨⟨[("Box", 0)], 1⟩, [(0, [⟨1, 3⟩])], []⟩ : Warehouse)
          ⟨TransactionType.Consume, "Box", 5, none⟩).2.transaction_history =
        [] ++ [⟨TransactionType.Consume, "Box", 5, none⟩]) :=
  ⟨⟨by decide, by decide, by decide, by decide⟩,
    C10_consume_one_unit _ ("Box") 5 0 [⟨1, 3⟩] (by decide) (by decide) (by decide)
      (by decide)⟩

/-- C7: a Consume for a product with no recorded heap (never successfully
produced) fails with the warehouse error (the spec's UnknownProduct) returned
to the caller of transact — an error return, not a panic. -/
theorem C7_unknown_product (w : Warehouse) (p : String) (q : ℕ) (hw : WF w)
    (hh : hasHeap w p = false) :
    (transact w ⟨TransactionType.Consume, p, q, none⟩).1 = TxOutcome.warehouseErr := by
  rcases hcase : lookupStr w.inventory_id_map.product_strings_to_ids p with _ | k
  · have hkey := get_inventory_key_fresh w.inventory_id_map p hcase
    have htr := transact_consume_noheap w p q w.inventory_id_map.next_id _ hkey
      (WF_fresh w hw)
    rw [htr]
  · have hkey := get_inventory_key_known w.inventory_id_map p k hcase
    have hhn : lookupHeap w.inventory_heaps k = none := by
      rw [hasHeap_some w p k hcase] at hh
      cases he : lookupHeap w.inventory_heaps k with
      | none => rfl
      | some h2 =>
        rw [he] at hh
        simp at hh
    have htr := transact_consume_noheap w p q k _ hkey hhn
    rw [htr]

/-- The empty warehouse is well formed. -/
theorem WF_emptyWarehouse : WF emptyWarehouse := by
  constructor
  · intro a ha
    simp [emptyWarehouse] at ha
  · intro a ha
    simp [emptyWarehouse] at ha

/-- Witness for C7: consuming a never-produced product in the empty warehouse
returns the warehouse error. -/
theorem C7_witness :
    WF emptyWarehouse ∧ hasHeap emptyWarehouse ("Gadget") = false ∧
    (transact emptyWarehouse ⟨TransactionType.Consume, "Gadget", 1, none⟩).1 =
      TxOutcome.warehouseErr :=
  ⟨WF_emptyWarehouse, by decide,
    C7_unknown_product emptyWarehouse ("Gadget") 1 WF_emptyWarehouse (by decide)⟩

/-- C8: transact rejects, with the warehouse error and without any state
change (in particular without appending to the history), every Produce whose
total_cost is absent and every Consume whose total_cost is present; and every
transaction that succeeds is appended at the end of the history, preserving
call order. -/
theorem C8_validation_and_history (w : Warehouse) (t : Transaction) :
    (t.transaction_type = TransactionType.Produce → t.total_cost = none →
      transact w t = (TxOutcome.warehouseErr, w)) ∧
    (t.transaction_type = TransactionType.Consume → t.total_cost ≠ none →
      transact w t = (TxOutcome.warehouseErr, w)) ∧
    ((transact w t).1 = TxOutcome.ok →
      (transact w t).2.transaction_history = w.transaction_history ++ [t]) := by
  refine ⟨?_, ?_, ?_⟩
  · intro ht hc
    unfold transact validate_transaction
    rw [ht, hc]
    simp
  · intro ht hc
    obtain ⟨c, hc2⟩ := Option.ne_none_iff_exists'.mp hc
    unfold transact validate_transaction
    rw [ht, hc2]
    simp
  · intro hok
    unfold transact at hok ⊢
    by_cases hv : validate_transaction t
    · rw [if_pos hv] at hok ⊢
      have hist : (match t.transaction_type with
          | TransactionType.Produce => produce w t
          | TransactionType.Consume => consume w t).2.transaction_history =
          w.transaction_history := by
        cases t.transaction_type with
        | Produce => exact produce_history w t
        | Consume => exact consume_history w t
      rcases hr : (match t.transaction_type with
          | TransactionType.Produce => produce w t
          | TransactionType.Consume => consume w t) with ⟨r, w1⟩
      rw [hr] at hok hist ⊢
      cases r with
      | ok =>
        show w1.transaction_history ++ [t] = w.transaction_history ++ [t]
        rw [hist]
      | warehouseErr => exact TxOutcome.noConfusion hok
      | panicked => exact TxOutcome.noConfusion hok
    · rw [if_neg hv] at hok
      exact TxOutcome.noConfusion hok

/-- Witness for C8 at concrete transactions: a cost-less Produce and a costed
Consume are rejected leaving the empty warehouse unchanged, and a valid
Produce is appended to the history. -/
theorem C8_witness :
    transact emptyWarehouse ⟨TransactionType.Produce, "Box", 1, none⟩ =
      (TxOutcome.warehouseErr, emptyWarehouse) ∧
    transact emptyWarehouse ⟨TransactionType.Consume, "Box", 1, some 2⟩ =
      (TxOutcome.warehouseErr, emptyWarehouse) ∧
    ((transact emptyWarehouse ⟨TransactionType.Produce, "Box", 1, some 2⟩).1 =
        TxOutcome.ok ∧
      (transact emptyWarehouse
          ⟨TransactionType.Produce, "Box", 1, some 2⟩).2.transaction_history =
        [] ++ [⟨TransactionType.Produce, "Box", 1, some 2⟩]) :=
  ⟨(C8_validation_and_history emptyWarehouse _).1 rfl rfl,
    (C8_validation_and_history emptyWarehouse _).2.1 rfl (by decide),
    ⟨by decide, (C8_validation_and_history emptyWarehouse _).2.2 (by decide)⟩⟩

/-- Counterexample to C4 as stated: produce one unit of a product and consume
it; the product's heap then exists and holds zero units, and a further
Consume makes transact panic (out-of-bounds indexing inside get_min) instead
of returning an error value to its caller. -/
theorem C4_counterexample :
    hasHeap (transact (transact emptyWarehouse
        ⟨TransactionType.Produce, "Box", 1, some 5⟩).2
        ⟨TransactionType.Consume, "Box", 1, none⟩).2 ("Box") = true ∧
    heapOf (transact (transact emptyWarehouse
        ⟨TransactionType.Produce, "Box", 1, some 5⟩).2
        ⟨TransactionType.Consume, "Box", 1, none⟩).2 ("Box") = [] ∧
    (transact (transact (transact emptyWarehouse
        ⟨TransactionType.Produce, "Box", 1, some 5⟩).2
        ⟨TransactionType.Consume, "Box", 1, none⟩).2
        ⟨TransactionType.Consume, "Box", 1, none⟩).1 = TxOutcome.panicked ∧
    (transact (transact (transact emptyWarehouse
        ⟨TransactionType.Produce, "Box", 1, some 5⟩).2
        ⟨TransactionType.Consume, "Box", 1, none⟩).2
        ⟨TransactionType.Consume, "Box", 1, none⟩).1 ≠ TxOutcome.warehouseErr := by
  decide

/-- C4 (amended): extract on an empty heap panics inside get_min, before the
delete step (delete alone is a no-op on an empty heap); consequently a
Consume for a product whose heap exists but holds zero units panics — leaving
heaps and history untouched — rather than returning an error to the caller of
transact. -/
theorem C4_empty_extract_panics (w : Warehouse) (p : String) (q k : ℕ)
    (hk : lookupStr w.inventory_id_map.product_strings_to_ids p = some k)
    (hh : lookupHeap w.inventory_heaps k = some []) :
    InventoryHeap.extract ([] : List Inventory) = none ∧
    InventoryHeap.delete ([] : List Inventory) = [] ∧
    (transact w ⟨TransactionType.Consume, p, q, none⟩).1 = TxOutcome.panicked ∧
    (transact w ⟨TransactionType.Consume, p, q, none⟩).2.inventory_heaps =
      w.inventory_heaps ∧
    (transact w ⟨TransactionType.Consume, p, q, none⟩).2.transaction_history =
      w.transaction_history := by
  have hkey := get_inventory_key_known w.inventory_id_map p k hk
  have htr := transact_consume_empty w p q k _ hkey hh
  exact ⟨rfl, rfl, by rw [htr], by rw [htr], by rw [htr]⟩

/-- Witness for the amended C4 at a concrete warehouse holding an empty heap
for a known product. -/
theorem C4_witness :
    (lookupStr (⟨⟨[("Box", 0)], 1⟩, [(0, [])], []⟩ :
        Warehouse).inventory_id_map.product_strings_to_ids ("Box") = some 0 ∧
      lookupHeap (⟨⟨[("Box", 0)], 1⟩, [(0, [])], []⟩ : Warehouse).inventory_heaps 0 =
        some []) ∧
    (InventoryHeap.extract ([] : List Inventory) = none ∧
      InventoryHeap.delete ([] : List Inventory) = [] ∧
      (transact (⟨⟨[("Box", 0)], 1⟩, [(0, [])], []⟩ : Warehouse)
          ⟨TransactionType.Consume, "Box", 1, none⟩).1 = TxOutcome.panicked ∧
      (transact (⟨⟨[("Box", 0)], 1⟩, [(0, [])], []⟩ : Warehouse)
          ⟨TransactionType.Consume, "Box", 1, none⟩).2.inventory_heaps =
        (⟨⟨[("Box", 0)], 1⟩, [(0, [])], []⟩ : Warehouse).inventory_heaps ∧
      (transact (⟨⟨[("Box", 0)], 1⟩, [(0, [])], []⟩ : Warehouse)
          ⟨TransactionType.Consume, "Box", 1, none⟩).2.transaction_history =
        (⟨⟨[("Box", 0)], 1⟩, [(0, [])], []⟩ : Warehouse).transaction_history) :=
  ⟨⟨by decide, by decide⟩,
    C4_empty_extract_panics _ ("Box") 1 0 (by decide) (by decide)⟩

/-- Counterexample to C5 as stated: a Consume of a never-produced product
makes transact fail, yet the warehouse state is changed — the ProductIndex
has gained an entry for the unknown name. -/
theorem C5_counterexample :
    (transact emptyWarehouse ⟨TransactionType.Consume, "Gadget", 1, none⟩).1 =
      TxOutcome.warehouseErr ∧
    (transact emptyWarehouse ⟨TransactionType.Consume, "Gadget", 1, none⟩).2 ≠
      emptyWarehouse ∧
    (transact emptyWarehouse
        ⟨TransactionType.Consume, "Gadget", 1, none⟩).2.inventory_id_map.product_strings_to_ids =
      [("Gadget", 0)] := by
  decide

/-- C5 (amended): on every transaction on which transact fails (error return
or panic), no heap is mutated and nothing is appended to the history; the
ProductIndex, however, may gain an entry, because produce and consume resolve
the product key first, registering an unknown name with a fresh key even when
the transaction subsequently fails. -/
theorem C5_failure_effects (w : Warehouse) (t : Transaction)
    (hf : (transact w t).1 ≠ TxOutcome.ok) :
    (transact w t).2.inventory_heaps = w.inventory_heaps ∧
    (transact w t).2.transaction_history = w.transaction_history := by
  unfold transact at hf ⊢
  by_cases hv : validate_transaction t
  · rw [if_pos hv] at hf ⊢
    have hist : (match t.transaction_type with
        | TransactionType.Produce => produce w t
        | TransactionType.Consume => consume w t).2.transaction_history =
        w.transaction_history := by
      cases t.transaction_type with
      | Produce => exact produce_history w t
      | Consume => exact consume_history w t
    have hfail : (match t.transaction_type with
        | TransactionType.Produce => produce w t
        | TransactionType.Consume => consume w t).1 ≠ TxOutcome.ok →
        (match t.transaction_type with
        | TransactionType.Produce => produce w t
        | TransactionType.Consume => consume w t).2.inventory_heaps =
        w.inventory_heaps := by
      cases t.transaction_type with
      | Produce => exact produce_fail_heaps w t
      | Consume => exact consume_fail_heaps w t
    rcases hr : (match t.transaction_type with
        | TransactionType.Produce => produce w t
        | TransactionType.Consume => consume w t) with ⟨r, w1⟩
    rw [hr] at hf hist hfail ⊢
    cases r with
    | ok => exact absurd rfl hf
    | warehouseErr =>
      exact ⟨hfail (fun hc => TxOutcome.noConfusion hc), hist⟩
    | panicked =>
      exact ⟨hfail (fun hc => TxOutcome.noConfusion hc), hist⟩
  · rw [if_neg hv]
    exact ⟨rfl, rfl⟩

/-- Witness for the amended C5: the failing Consume of an unknown product
leaves heaps and history unchanged. -/
theorem C5_witness :
    (transact emptyWarehouse ⟨TransactionType.Consume, "Gadget", 1, none⟩).1 ≠
      TxOutcome.ok ∧
    ((transact emptyWarehouse ⟨TransactionType.Consume, "Gadget", 1, none⟩).2.inventory_heaps =
        emptyWarehouse.inventory_heaps ∧
      (transact emptyWarehouse
          ⟨TransactionType.Consume, "Gadget", 1, none⟩).2.transaction_history =
        emptyWarehouse.transaction_history) :=
  ⟨by decide, C5_failure_effects emptyWarehouse _ (by decide)⟩

/-- C6 (the code's actual behaviour at the claim's failing input): a Produce
with quantity 0 passes validation, registers the product name in the
ProductIndex (a mutation), and then panics on the division by zero when
computing price_per_unit — it is not rejected with a validation error before
mutation; the transaction is not recorded in the history. -/
theorem C6_zero_quantity_produce_panics :
    (transact emptyWarehouse ⟨TransactionType.Produce, "Box", 0, some 10⟩).1 =
      TxOutcome.panicked ∧
    (transact emptyWarehouse ⟨TransactionType.Produce, "Box", 0, some 10⟩).1 ≠
      TxOutcome.warehouseErr ∧
    (transact emptyWarehouse
        ⟨TransactionType.Produce, "Box", 0, some 10⟩).2.inventory_id_map.product_strings_to_ids =
      [("Box", 0)] ∧
    (transact emptyWarehouse
        ⟨TransactionType.Produce, "Box", 0, some 10⟩).2.transaction_history = [] := by
  decide
